import Mathlib

/-!
Shallow embedding of the drivedriverb core (src/analyzer.rs, src/storage.rs,
src/scanner.rs, src/config.rs) and proofs of the specification claims.

Modelling conventions:
* Rust `PathBuf` is modelled as `String` (the canonical path string);
  `to_string_lossy` is then the identity.
* `chrono::DateTime<Utc>` is modelled as a pair of Unix seconds (`Int`) and
  subsecond nanoseconds (`Nat`); `ts_seconds` serialization keeps only the
  seconds part.
* `f32` (only the AI `confidence_score`) is modelled by Lean `Float`; it is
  carried opaquely, never computed on.
* Filesystem content is a function `String → Option (List Nat)`: `none` means
  the file's bytes cannot be read.
-/

namespace DriveDriver

/-- Model of `chrono::DateTime<Utc>`: Unix seconds plus subsecond nanoseconds. -/
structure DateTimeUtc where
  secs : Int
  nsecs : Nat
deriving DecidableEq, Repr

/-- `AIAnalysisResult` from src/ai_integration.rs. -/
structure AIAnalysisResult where
  file_purpose : String
  importance_level : String
  potential_category : String
  deletion_recommendation : Bool
  confidence_score : Float
deriving Repr

/-- `FileMetadata` from src/storage.rs. -/
structure FileMetadata where
  path : String
  file_name : String
  extension : String
  size : Nat
  created : DateTimeUtc
  modified : DateTimeUtc
  category : String
  mime_type : String
  importance_score : Nat
  last_accessed : DateTimeUtc
  is_duplicate : Bool
  duplicate_of : Option String
  ai_analysis : Option AIAnalysisResult
deriving Repr

/-- Total nanoseconds since the epoch of a timestamp. -/
def DateTimeUtc.totalNanos (t : DateTimeUtc) : Int :=
  t.secs * 1000000000 + t.nsecs

/-- `chrono::Duration::num_days` of `now - modified`: whole days, truncated
toward zero, as Rust integer division does. -/
def daysBetween (now modified : DateTimeUtc) : Int :=
  ((now.totalNanos - modified.totalNanos).tdiv 1000000000).tdiv 86400

/-- `calculate_importance_score` from src/analyzer.rs (lines 66-93): recency
bonus from days since modification, plus a category bonus, clamped with
`min(100)` and cast to `u8`. -/
def calculate_importance_score (now : DateTimeUtc) (metadata : FileMetadata) : Nat :=
  let days_since_modification := daysBetween now metadata.modified
  let score : Int :=
    (if days_since_modification < 7 then 30
     else if days_since_modification < 30 then 20
     else if days_since_modification < 90 then 10
     else 0)
  let score := score +
    (if metadata.category = "document" then 25
     else if metadata.category = "spreadsheet" ∨ metadata.category = "presentation" then 20
     else if metadata.category = "image" ∨ metadata.category = "video" then 15
     else if metadata.category = "audio" then 10
     else if metadata.category = "application" then 5
     else 0)
  (min score 100).toNat

/-! ### String primitives

The Rust string operations are modelled over `String.data` (the character
list) so that every definition is kernel-computable. -/

/-- Rust `str::starts_with`. -/
def strStartsWith (s p : String) : Bool := p.data.isPrefixOf s.data

/-- Rust `str::to_lowercase` (the extensions compared are ASCII). -/
def strToLower (s : String) : String := String.mk (s.data.map Char.toLower)

/-- Split a character list at every occurrence of `sep`
(Rust `str::split` for a one-character pattern). -/
def splitChar (sep : Char) : List Char → List (List Char)
  | [] => [[]]
  | c :: rest =>
    let r := splitChar sep rest
    if c = sep then [] :: r
    else (c :: r.headD []) :: r.tail

/-! ### Path helpers (Rust `std::path` behaviour on canonical path strings) -/

/-- `Path::file_name` on a path string: the last slash-separated component
(trailing slashes ignored). -/
def fileNameOf (p : String) : String :=
  String.mk (((splitChar '/' p.data).filter (fun s => s ≠ [])).getLastD [])

/-- `Path::extension`: the part of the file name after the last dot; `none`
when the file name has no embedded dot (a leading dot does not count). -/
def pathExtension (p : String) : Option String :=
  let name := (fileNameOf p).data
  let core := match name with
    | '.' :: rest => rest
    | _ => name
  let parts := splitChar '.' core
  if parts.length ≤ 1 then none else some (String.mk (parts.getLastD []))

/-! ### Analyzer (src/analyzer.rs) -/

/-- OS-reported metadata for one file (`std::fs::Metadata`): byte length,
creation/modification times when available, and whether any POSIX execute
bit is set (`is_executable`, analyzer.rs lines 112-130, reads the mode). -/
structure SysMeta where
  size : Nat
  created : Option DateTimeUtc
  modified : Option DateTimeUtc
  executable : Bool
deriving Repr

/-- `determine_file_category` (analyzer.rs lines 43-64); `extension` is the
already-lowercased extension, `exec` the result of `is_executable`. -/
def determine_file_category (exec : Bool) (extension : Option String) : String :=
  match extension with
  | some ext =>
    if ext = "jpg" ∨ ext = "jpeg" ∨ ext = "png" ∨ ext = "gif" ∨ ext = "bmp" ∨
       ext = "tiff" ∨ ext = "webp" ∨ ext = "heic" then "image"
    else if ext = "mp4" ∨ ext = "avi" ∨ ext = "mov" ∨ ext = "wmv" ∨ ext = "flv" ∨
       ext = "mkv" ∨ ext = "webm" then "video"
    else if ext = "mp3" ∨ ext = "wav" ∨ ext = "ogg" ∨ ext = "flac" ∨ ext = "aac" ∨
       ext = "m4a" then "audio"
    else if ext = "doc" ∨ ext = "docx" ∨ ext = "pdf" ∨ ext = "txt" ∨ ext = "rtf" ∨
       ext = "odt" then "document"
    else if ext = "xls" ∨ ext = "xlsx" ∨ ext = "csv" ∨ ext = "ods" then "spreadsheet"
    else if ext = "ppt" ∨ ext = "pptx" ∨ ext = "odp" then "presentation"
    else if ext = "exe" ∨ ext = "app" ∨ ext = "dmg" ∨ ext = "deb" ∨ ext = "rpm" then "application"
    else if ext = "zip" ∨ ext = "rar" ∨ ext = "7z" ∨ ext = "tar" ∨ ext = "gz" then "archive"
    else "other"
  | none => if exec then "application" else "other"

/-- `get_mime_type` (analyzer.rs lines 95-110). -/
def get_mime_type (path : String) : String :=
  match (pathExtension path).map strToLower with
  | some ext =>
    if ext = "jpg" ∨ ext = "jpeg" then "image/jpeg"
    else if ext = "png" then "image/png"
    else if ext = "pdf" then "application/pdf"
    else if ext = "txt" then "text/plain"
    else "application/octet-stream"
  | none => "application/octet-stream"

/-- `analyze_file` (analyzer.rs lines 8-41). `now` models both `Utc::now()`
and the `SystemTime::now()` fallbacks for missing timestamps. -/
def analyze_file (now : DateTimeUtc) (path : String) (system_metadata : SysMeta) : FileMetadata :=
  let file_name := fileNameOf path
  let extension := (pathExtension path).map strToLower
  let created := system_metadata.created.getD now
  let modified := system_metadata.modified.getD now
  let category := determine_file_category system_metadata.executable extension
  let metadata : FileMetadata :=
    { path := path
      file_name := file_name
      extension := extension.getD ""
      size := system_metadata.size
      created := created
      modified := modified
      category := category
      mime_type := get_mime_type path
      importance_score := 0
      last_accessed := modified
      is_duplicate := false
      duplicate_of := none
      ai_analysis := none }
  { metadata with importance_score := calculate_importance_score now metadata }

/-! ### Configuration (src/config.rs) -/

/-- `Config` (config.rs lines 4-10); `excluded_paths` models the `HashSet`. -/
structure Config where
  use_ai_analysis : Bool
  ollama_model : String
  ollama_url : String
  excluded_paths : List String

/-- `Config::is_path_excluded` (config.rs lines 33-35): set membership. -/
def Config.is_path_excluded (cfg : Config) (path : String) : Bool :=
  cfg.excluded_paths.contains path

/-! ### Association-list maps (model of `HashMap`) -/

/-- Map lookup, first matching key. -/
def lookupKV {κ α : Type} [DecidableEq κ] (k : κ) : List (κ × α) → Option α
  | [] => none
  | kv :: rest => if kv.1 = k then some kv.2 else lookupKV k rest

/-- `HashMap::insert`: replace the value at an existing key, else add the
binding. -/
def insertKV {κ α : Type} [DecidableEq κ] (m : List (κ × α)) (k : κ) (v : α) :
    List (κ × α) :=
  if k ∈ m.map Prod.fst then
    m.map (fun kv => if kv.1 = k then (k, v) else kv)
  else m ++ [(k, v)]

/-! ### Scanner (src/scanner.rs) -/

/-- `ScanResult` (scanner.rs lines 9-14). -/
structure ScanResult where
  total_files : Nat
  total_size : Nat
  file_types : List (String × Nat)
  metadata : List (String × FileMetadata)

def emptyScanResult : ScanResult :=
  { total_files := 0, total_size := 0, file_types := [], metadata := [] }

/-- One file entry yielded by the `WalkDir` traversal: its path and the
result of `std::fs::metadata` (`none` = unreadable, entry skipped). -/
structure WalkEntry where
  path : String
  meta : Option SysMeta

/-- The per-entry body of the walk loop in `scan_drive`
(scanner.rs lines 44-72). -/
def scan_step (cfg : Config) (now : DateTimeUtc) (result : ScanResult)
    (entry : WalkEntry) : ScanResult :=
  if cfg.is_path_excluded entry.path then result
  else
    match entry.meta with
    | none => result
    | some metadata =>
      let result := { result with
        total_files := result.total_files + 1
        total_size := result.total_size + metadata.size }
      let result :=
        match pathExtension entry.path with
        | some ext =>
          let ext_str := strToLower ext
          { result with file_types :=
              (insertKV result.file_types ext_str
                ((lookupKV ext_str result.file_types).getD 0 + 1)) }
        | none => result
      let file_metadata := analyze_file now entry.path metadata
      { result with metadata := insertKV result.metadata entry.path file_metadata }

/-- `scan_drive` (scanner.rs lines 28-79): fold the walk entries, then
persist with `let _ = save_scan_result(...)` — the persistence outcome is
discarded — and return the built result. -/
def scan_drive (cfg : Config) (now : DateTimeUtc) (entries : List WalkEntry)
    (persist : ScanResult → Except String Unit) : ScanResult :=
  let result := entries.foldl (scan_step cfg now) emptyScanResult
  let _ := persist result
  result

/-- The per-line body of the `/proc/mounts` loop in `get_all_drives`
(scanner.rs lines 107-116): a line with at least two whitespace-separated
fields contributes its second field unless it starts with a pseudo-filesystem
prefix. -/
def mountStep (drives : List String) (parts : List String) : List String :=
  match parts with
  | _device :: mount_point :: _ =>
    if strStartsWith mount_point "/proc" || strStartsWith mount_point "/sys" ||
       strStartsWith mount_point "/dev" || strStartsWith mount_point "/run" then
      drives
    else drives ++ [mount_point]
  | _ => drives

/-- The Linux branch of `get_all_drives` (scanner.rs lines 103-123), as a
function of the parsed `/proc/mounts` lines (each line already split on
whitespace); the root filesystem is appended when absent. -/
def get_all_drives_linux (lines : List (List String)) : List String :=
  let drives := lines.foldl mountStep []
  if drives.contains "/" then drives else drives ++ ["/"]

/-! ### Storage (src/storage.rs)

A chunk file on disk holds, for each record, its serialized form; with
`ts_seconds` serialization the parsed-back record differs from the original
only by dropped subsecond nanoseconds. We therefore store records in
truncated form. -/

/-- Serialize-then-parse of one timestamp (`ts_seconds`): integer Unix
seconds survive, nanoseconds are dropped. -/
def truncTs (t : DateTimeUtc) : DateTimeUtc := { secs := t.secs, nsecs := 0 }

/-- Serialize-then-parse of one `FileMetadata` record: all fields survive
JSON round-tripping except the three timestamps, which lose subsecond
precision. -/
def truncFM (m : FileMetadata) : FileMetadata :=
  { m with created := truncTs m.created, modified := truncTs m.modified,
           last_accessed := truncTs m.last_accessed }

/-- Parsed contents of one metadata chunk file: path-string → record. -/
abbrev Chunk := List (String × FileMetadata)

/-- The data directory's chunk files: chunk index → parsed chunk. -/
abbrev Store := List (Nat × Chunk)

/-- `fs::read_to_string` + parse (with `unwrap_or_default`) of a chunk file
during save: the present chunk's contents, or empty. -/
def getChunk (s : Store) (c : Nat) : Chunk := (lookupKV c s).getD []

/-- The loop body of `save_scan_result` (storage.rs lines 53-77): bump the
chunk index when `current_index % chunk_size == 0`, read the target chunk,
upsert the record under its path string, and rewrite the chunk. -/
def saveChunksAux (chunk_size : Nat) :
    List (String × FileMetadata) → Nat → Nat → Store → Store
  | [], _, _, s => s
  | (path, metadata) :: rest, current_chunk, current_index, s =>
    let current_chunk :=
      if current_index % chunk_size = 0 then current_chunk + 1 else current_chunk
    let chunk_data := getChunk s current_chunk
    let chunk_data := insertKV chunk_data path (truncFM metadata)
    let s := insertKV s current_chunk chunk_data
    saveChunksAux chunk_size rest current_chunk (current_index + 1) s

/-- The metadata part of `save_scan_result` (storage.rs lines 47-77) run
against an empty data directory: distribute the map's entries (in iteration
order) over chunk files of capacity 10000. -/
def save_scan_result (entries : List (String × FileMetadata)) : Store :=
  saveChunksAux 10000 entries 0 0 []

/-- One directory entry seen by `load_file_metadata`: file name, whether it
is a regular file, and the result of reading-and-parsing it as a chunk
(`none` = unreadable or malformed JSON). -/
structure DirEntry where
  name : String
  isFile : Bool
  parse : Option Chunk

/-- Merging one parsed chunk into the accumulated catalog
(storage.rs lines 100-102): insert each record keyed by its `path` field. -/
def mergeChunk (acc : Chunk) (chunk : Chunk) : Chunk :=
  chunk.foldl (fun acc kv => insertKV acc kv.2.path kv.2) acc

/-- The directory loop of `load_file_metadata` (storage.rs lines 91-104):
skip non-files and files not named `metadata_chunk_*`; a chunk file that
fails to read or parse aborts the whole load with an error. -/
def loadAux : List DirEntry → Chunk → Except Unit Chunk
  | [], acc => .ok acc
  | f :: rest, acc =>
    if f.isFile ∧ strStartsWith f.name "metadata_chunk_" then
      match f.parse with
      | some chunk => loadAux rest (mergeChunk acc chunk)
      | none => .error ()
    else loadAux rest acc

/-- `load_file_metadata` (storage.rs lines 82-107): a missing data directory
(`dir = none`) yields an empty catalog; otherwise fold the directory
entries. -/
def load_file_metadata (dir : Option (List DirEntry)) : Except Unit Chunk :=
  match dir with
  | none => .ok []
  | some files => loadAux files []

/-- The data directory produced by `save_scan_result` on a fresh store: the
stats file (not a chunk; parsing it as a chunk would fail) plus one
well-formed file per chunk. -/
def dirOfStore (s : Store) : List DirEntry :=
  { name := "latest_stats.json", isFile := true, parse := none } ::
    s.map (fun ic =>
      { name := "metadata_chunk_" ++ toString ic.1 ++ ".json", isFile := true,
        parse := some ic.2 })

/-- `are_files_identical` (storage.rs lines 133-140): read both files; any
read failure means "not identical". `fs` maps a path to its bytes. -/
def are_files_identical (fs : String → Option (List Nat)) (path1 path2 : String) : Bool :=
  match fs path1, fs path2 with
  | some content1, some content2 => content1 = content2
  | _, _ => false

/-- The `for i / for j in i+1..` double loop: all ordered pairs (i, j) with
i < j, in order. -/
def allPairs {α : Type} : List α → List (α × α)
  | [] => []
  | x :: xs => xs.map (fun y => (x, y)) ++ allPairs xs

/-- The distinct sizes occurring in the catalog (the keys of `size_map`). -/
def sizesOf (metadata : Chunk) : List Nat :=
  (metadata.map (fun kv => kv.2.size)).dedup

/-- The `size_map` bucket for size `s`: the paths of all entries of that
recorded size, in catalog order. -/
def sizeBucket (metadata : Chunk) (s : Nat) : List String :=
  (metadata.filter (fun kv => kv.2.size = s)).map Prod.fst

/-- The pairs examined by `are_files_identical` during
`find_duplicate_files`: every ordered pair of a bucket with at least two
members (storage.rs lines 119-127). -/
def comparedPairs (metadata : Chunk) : List (String × String) :=
  (sizesOf metadata).flatMap (fun s =>
    let files := sizeBucket metadata s
    if files.length > 1 then allPairs files else [])

/-- `find_duplicate_files` (storage.rs lines 109-131): bucket by size,
drop singleton buckets, and keep every compared pair whose contents are
byte-identical. -/
def find_duplicate_files (fs : String → Option (List Nat)) (metadata : Chunk) :
    List (String × String) :=
  (sizesOf metadata).flatMap (fun s =>
    let files := sizeBucket metadata s
    if files.length > 1 then
      (allPairs files).filter (fun p => are_files_identical fs p.1 p.2)
    else [])

/-! ## Generic facts about the association-list map model -/

theorem lookupKV_append {κ α : Type} [DecidableEq κ] (k : κ) (m₁ m₂ : List (κ × α)) :
    lookupKV k (m₁ ++ m₂) =
      match lookupKV k m₁ with
      | some v => some v
      | none => lookupKV k m₂ := by
  induction m₁ with
  | nil => simp [lookupKV]
  | cons kv rest ih =>
    by_cases h : kv.1 = k <;> simp [lookupKV, h, ih]

theorem lookupKV_eq_none_iff {κ α : Type} [DecidableEq κ] (k : κ) (m : List (κ × α)) :
    lookupKV k m = none ↔ k ∉ m.map Prod.fst := by
  induction m with
  | nil => simp [lookupKV]
  | cons kv rest ih =>
    rw [List.map_cons, List.mem_cons]
    unfold lookupKV
    by_cases h : kv.1 = k
    · rw [if_pos h]
      constructor
      · intro hx; exact absurd hx (by simp)
      · intro hx; exact absurd (Or.inl h.symm) hx
    · rw [if_neg h, ih]
      constructor
      · intro hx hy
        rcases hy with hy | hy
        · exact h hy.symm
        · exact hx hy
      · intro hx hy
        exact hx (Or.inr hy)

theorem lookupKV_mapReplace_self {κ α : Type} [DecidableEq κ] (m : List (κ × α))
    (k : κ) (v : α) (hmem : k ∈ m.map Prod.fst) :
    lookupKV k (m.map (fun kv => if kv.1 = k then (k, v) else kv)) = some v := by
  induction m with
  | nil => simp at hmem
  | cons kv rest ih =>
    by_cases h : kv.1 = k
    · simp [lookupKV, h]
    · have hr : k ∈ rest.map Prod.fst := by
        rcases List.mem_map.mp hmem with ⟨kv', hkv', rfl⟩
        rcases List.mem_cons.mp hkv' with rfl | htl
        · exact absurd rfl h
        · exact List.mem_map.mpr ⟨kv', htl, rfl⟩
      simpa [lookupKV, h] using ih hr

theorem lookupKV_mapReplace_ne {κ α : Type} [DecidableEq κ] (m : List (κ × α))
    (k k' : κ) (v : α) (h : k' ≠ k) :
    lookupKV k' (m.map (fun kv => if kv.1 = k then (k, v) else kv)) = lookupKV k' m := by
  induction m with
  | nil => simp
  | cons kv rest ih =>
    by_cases hk : kv.1 = k
    · have h1 : ¬ (k = k') := fun hh => h hh.symm
      have h2 : ¬ (kv.1 = k') := by rw [hk]; exact h1
      simp [lookupKV, hk, h1, h2, ih]
    · by_cases hk' : kv.1 = k' <;> simp [lookupKV, hk, hk', ih, h]

theorem keys_mapReplace {κ α : Type} [DecidableEq κ] (m : List (κ × α))
    (k : κ) (v : α) :
    (m.map (fun kv => if kv.1 = k then (k, v) else kv)).map Prod.fst = m.map Prod.fst := by
  induction m with
  | nil => simp
  | cons kv rest ih =>
    by_cases hk : kv.1 = k <;> simp [hk, ih]

theorem insertKV_of_not_mem {κ α : Type} [DecidableEq κ] (m : List (κ × α))
    (k : κ) (v : α) (h : k ∉ m.map Prod.fst) : insertKV m k v = m ++ [(k, v)] := by
  unfold insertKV
  rw [if_neg h]

theorem lookupKV_insertKV_self {κ α : Type} [DecidableEq κ] (m : List (κ × α))
    (k : κ) (v : α) : lookupKV k (insertKV m k v) = some v := by
  unfold insertKV
  split
  · exact lookupKV_mapReplace_self m k v (by assumption)
  · rw [lookupKV_append]
    have hnone : lookupKV k m = none := by
      rw [lookupKV_eq_none_iff]; assumption
    simp [hnone, lookupKV]

theorem lookupKV_insertKV_ne {κ α : Type} [DecidableEq κ] (m : List (κ × α))
    (k k' : κ) (v : α) (h : k' ≠ k) :
    lookupKV k' (insertKV m k v) = lookupKV k' m := by
  unfold insertKV
  split
  · exact lookupKV_mapReplace_ne m k k' v h
  · rw [lookupKV_append]
    have h1 : ¬ (k = k') := fun hh => h hh.symm
    cases hm : lookupKV k' m <;> simp [lookupKV, h1]

theorem mem_keys_insertKV {κ α : Type} [DecidableEq κ] (m : List (κ × α))
    (k k' : κ) (v : α) :
    k' ∈ (insertKV m k v).map Prod.fst ↔ k' ∈ m.map Prod.fst ∨ k' = k := by
  unfold insertKV
  split
  · rename_i hmem
    rw [keys_mapReplace]
    constructor
    · exact Or.inl
    · rintro (h | rfl)
      · exact h
      · exact hmem
  · simp [or_comm]

/-! ## Theorems -/

/-- C5: for every "now", every modification time and every category — hence
every combination of recency and category bonus — the importance score
computed by `calculate_importance_score` lies in [0, 100]. -/
theorem importance_score_clamped (now : DateTimeUtc) (m : FileMetadata) :
    0 ≤ calculate_importance_score now m ∧ calculate_importance_score now m ≤ 100 := by
  refine ⟨Nat.zero_le _, ?_⟩
  unfold calculate_importance_score
  split_ifs <;> norm_num

/-- C3: the importance score is a deterministic function of category and
days-since-modification alone: any file of category "document" modified
exactly 2 days before "now" scores 30 + 25 = 55, and any file of category
"other" modified exactly 200 days before "now" scores 0, regardless of all
other attributes. -/
theorem importance_score_document_and_other (m : FileMetadata) :
    (m.category = "document" →
      calculate_importance_score
        { secs := m.modified.secs + 2 * 86400, nsecs := m.modified.nsecs } m = 55) ∧
    (m.category = "other" →
      calculate_importance_score
        { secs := m.modified.secs + 200 * 86400, nsecs := m.modified.nsecs } m = 0) := by
  constructor <;> intro h
  · have hd : daysBetween
        { secs := m.modified.secs + 172800, nsecs := m.modified.nsecs } m.modified = 2 := by
      unfold daysBetween DateTimeUtc.totalNanos
      have h1 : ((m.modified.secs + 172800) * 1000000000 + (m.modified.nsecs : Int))
          - (m.modified.secs * 1000000000 + (m.modified.nsecs : Int))
          = 172800000000000 := by ring
      simp only [h1]
      decide
    norm_num [calculate_importance_score, hd, h]
    decide
  · have hd : daysBetween
        { secs := m.modified.secs + 17280000, nsecs := m.modified.nsecs } m.modified = 200 := by
      unfold daysBetween DateTimeUtc.totalNanos
      have h1 : ((m.modified.secs + 17280000) * 1000000000 + (m.modified.nsecs : Int))
          - (m.modified.secs * 1000000000 + (m.modified.nsecs : Int))
          = 17280000000000000 := by ring
      simp only [h1]
      decide
    norm_num [calculate_importance_score, hd, h]
    decide

/-- A concrete "document" record used to witness C3. -/
def sampleDocumentFM : FileMetadata :=
  { path := "/home/u/report.pdf", file_name := "report.pdf", extension := "pdf",
    size := 1024, created := { secs := 0, nsecs := 0 },
    modified := { secs := 1000, nsecs := 0 }, category := "document",
    mime_type := "application/pdf", importance_score := 0,
    last_accessed := { secs := 1000, nsecs := 0 }, is_duplicate := false,
    duplicate_of := none, ai_analysis := none }

/-- A concrete "other" record used to witness C3. -/
def sampleOtherFM : FileMetadata :=
  { sampleDocumentFM with
    path := "/home/u/data.bin"
    file_name := "data.bin"
    extension := "bin"
    category := "other"
    mime_type := "application/octet-stream" }

/-- Witness for C3 at concrete records. -/
theorem importance_score_document_and_other_witness :
    sampleDocumentFM.category = "document" ∧
    calculate_importance_score
      { secs := sampleDocumentFM.modified.secs + 2 * 86400,
        nsecs := sampleDocumentFM.modified.nsecs } sampleDocumentFM = 55 ∧
    sampleOtherFM.category = "other" ∧
    calculate_importance_score
      { secs := sampleOtherFM.modified.secs + 200 * 86400,
        nsecs := sampleOtherFM.modified.nsecs } sampleOtherFM = 0 :=
  ⟨rfl, (importance_score_document_and_other sampleDocumentFM).1 rfl,
   rfl, (importance_score_document_and_other sampleOtherFM).2 rfl⟩

/-- Every drive accumulated by the mount-table fold avoids the four
pseudo-filesystem prefixes, provided the accumulator already does. -/
theorem mountFold_no_pseudo (lines : List (List String)) (acc : List String)
    (hacc : ∀ d ∈ acc, strStartsWith d "/proc" = false ∧ strStartsWith d "/sys" = false ∧
      strStartsWith d "/dev" = false ∧ strStartsWith d "/run" = false) :
    ∀ d ∈ lines.foldl mountStep acc,
      strStartsWith d "/proc" = false ∧ strStartsWith d "/sys" = false ∧
      strStartsWith d "/dev" = false ∧ strStartsWith d "/run" = false := by
  induction lines generalizing acc with
  | nil => simpa using hacc
  | cons line rest ih =>
    rw [List.foldl_cons]
    apply ih
    intro d hd
    rcases line with _ | ⟨dev, _ | ⟨mp, tailFields⟩⟩
    · exact hacc d hd
    · exact hacc d hd
    · simp only [mountStep] at hd
      by_cases hc : (strStartsWith mp "/proc" || strStartsWith mp "/sys" ||
          strStartsWith mp "/dev" || strStartsWith mp "/run") = true
      · rw [if_pos hc] at hd
        exact hacc d hd
      · rw [if_neg hc] at hd
        rcases List.mem_append.mp hd with h | h
        · exact hacc d h
        · have hdm : d = mp := by simpa using h
          subst hdm
          simp only [Bool.or_eq_true, not_or] at hc
          exact ⟨Bool.eq_false_iff.mpr hc.1.1.1, Bool.eq_false_iff.mpr hc.1.1.2,
            Bool.eq_false_iff.mpr hc.1.2, Bool.eq_false_iff.mpr hc.2⟩

/-- C8: whatever the mount table's lines are, the enumerated drive list
contains the root filesystem `/` (even when no line mentions it), and no
enumerated drive starts with `/proc`, `/sys`, `/dev` or `/run` — in
particular those four mount points themselves are excluded. -/
theorem get_all_drives_excludes_pseudo_includes_root (lines : List (List String)) :
    "/" ∈ get_all_drives_linux lines ∧
    ∀ d ∈ get_all_drives_linux lines,
      strStartsWith d "/proc" = false ∧ strStartsWith d "/sys" = false ∧
      strStartsWith d "/dev" = false ∧ strStartsWith d "/run" = false := by
  have hfree := mountFold_no_pseudo lines [] (by simp)
  simp only [get_all_drives_linux]
  constructor
  · split
    · rename_i hc
      simpa using hc
    · exact List.mem_append_right _ (by simp)
  · intro d hd
    split at hd
    · exact hfree d hd
    · rcases List.mem_append.mp hd with h | h
      · exact hfree d h
      · have hdm : d = "/" := by simpa using h
        subst hdm
        refine ⟨by decide, by decide, by decide, by decide⟩

/-- Witness for C8 on a concrete mount table that lists `/proc`, `/sys`,
`/dev`, `/run` but not `/`. -/
theorem get_all_drives_excludes_pseudo_includes_root_witness :
    "/" ∈ get_all_drives_linux
        [["proc", "/proc"], ["sysfs", "/sys"], ["udev", "/dev"], ["tmpfs", "/run"]] ∧
    (strStartsWith "/" "/proc" = false ∧ strStartsWith "/" "/sys" = false ∧
     strStartsWith "/" "/dev" = false ∧ strStartsWith "/" "/run" = false) :=
  ⟨(get_all_drives_excludes_pseudo_includes_root _).1,
   (get_all_drives_excludes_pseudo_includes_root
      [["proc", "/proc"], ["sysfs", "/sys"], ["udev", "/dev"], ["tmpfs", "/run"]]).2 "/"
      (get_all_drives_excludes_pseudo_includes_root _).1⟩

/-- C9: the `ScanResult` returned by `scan_drive` is exactly the result
built by the walk, whatever the persistence step does — a failing
`save_scan_result` is discarded by `let _ = ...` and never alters or
suppresses the returned result. -/
theorem scan_drive_ignores_persistence_outcome (cfg : Config) (now : DateTimeUtc)
    (entries : List WalkEntry) (persist₁ persist₂ : ScanResult → Except String Unit) :
    scan_drive cfg now entries persist₁ = scan_drive cfg now entries persist₂ ∧
    scan_drive cfg now entries persist₁ =
      entries.foldl (scan_step cfg now) emptyScanResult :=
  ⟨rfl, rfl⟩

/-- Every pair emitted by `find_duplicate_files` passed the
`are_files_identical` content comparison. -/
theorem mem_find_duplicate_files_identical (fs : String → Option (List Nat))
    (metadata : Chunk) (x y : String)
    (h : (x, y) ∈ find_duplicate_files fs metadata) :
    are_files_identical fs x y = true := by
  unfold find_duplicate_files at h
  rcases List.mem_flatMap.mp h with ⟨s, _, hp⟩
  by_cases hl : (sizeBucket metadata s).length > 1
  · rw [if_pos hl] at hp
    exact (List.mem_filter.mp hp).2
  · rw [if_neg hl] at hp
    simp at hp

/-- C7: if either file's content cannot be read, `are_files_identical`
returns `false` (it never raises), and the pair is never emitted (in either
orientation) by `find_duplicate_files`. -/
theorem unreadable_never_duplicate (fs : String → Option (List Nat))
    (metadata : Chunk) (a b : String) (h : fs a = none ∨ fs b = none) :
    are_files_identical fs a b = false ∧
    (a, b) ∉ find_duplicate_files fs metadata ∧
    (b, a) ∉ find_duplicate_files fs metadata := by
  have hid : ∀ x y : String, fs x = none ∨ fs y = none →
      are_files_identical fs x y = false := by
    intro x y hxy
    unfold are_files_identical
    cases hfx : fs x <;> cases hfy : fs y <;>
      first
      | rfl
      | (rcases hxy with hh | hh <;> simp_all)
  refine ⟨hid a b h, fun hmem => ?_, fun hmem => ?_⟩
  · have := mem_find_duplicate_files_identical fs metadata a b hmem
    rw [hid a b h] at this
    cases this
  · have := mem_find_duplicate_files_identical fs metadata b a hmem
    rw [hid b a (h.symm)] at this
    cases this

/-- A filesystem on which no content is readable, for the C7 witness. -/
def unreadableFs : String → Option (List Nat) := fun _ => none

/-- Witness for C7 at a concrete filesystem and catalog. -/
theorem unreadable_never_duplicate_witness :
    are_files_identical unreadableFs "/a" "/b" = false ∧
    ("/a", "/b") ∉ find_duplicate_files unreadableFs [] ∧
    ("/b", "/a") ∉ find_duplicate_files unreadableFs [] :=
  unreadable_never_duplicate unreadableFs [] "/a" "/b" (Or.inl rfl)

/-- A directory list with one unreadable or malformed chunk file makes the
whole load fail, whatever the accumulated catalog was. -/
theorem loadAux_error_of_bad_chunk (files : List DirEntry) (acc : Chunk)
    (f : DirEntry) (hf : f ∈ files) (hfile : f.isFile = true)
    (hname : strStartsWith f.name "metadata_chunk_" = true) (hparse : f.parse = none) :
    loadAux files acc = .error () := by
  induction files generalizing acc with
  | nil => simp at hf
  | cons g rest ih =>
    rcases List.mem_cons.mp hf with rfl | htl
    · unfold loadAux
      rw [if_pos ⟨hfile, hname⟩, hparse]
    · unfold loadAux
      split
      · cases hp : g.parse with
        | some chunk => exact ih _ htl
        | none => rfl
      · exact ih _ htl

/-- C6: a missing data directory loads as an empty, non-error catalog, but
any present chunk file that is unreadable or malformed turns the whole
`load_file_metadata` call into a hard error — no partial catalog. -/
theorem load_missing_dir_empty_bad_chunk_fails :
    load_file_metadata none = .ok [] ∧
    ∀ (files : List DirEntry) (f : DirEntry), f ∈ files → f.isFile = true →
      strStartsWith f.name "metadata_chunk_" = true → f.parse = none →
      load_file_metadata (some files) = .error () := by
  refine ⟨rfl, fun files f hf hfile hname hparse => ?_⟩
  unfold load_file_metadata
  exact loadAux_error_of_bad_chunk files [] f hf hfile hname hparse

/-- Witness for C6: a directory holding a single malformed chunk file. -/
theorem load_missing_dir_empty_bad_chunk_fails_witness :
    load_file_metadata none = .ok ([] : Chunk) ∧
    load_file_metadata
      (some [{ name := "metadata_chunk_1.json", isFile := true, parse := none }]) =
      .error () :=
  ⟨load_missing_dir_empty_bad_chunk_fails.1,
   load_missing_dir_empty_bad_chunk_fails.2
     [{ name := "metadata_chunk_1.json", isFile := true, parse := none }]
     { name := "metadata_chunk_1.json", isFile := true, parse := none }
     (by simp) rfl (by decide) rfl⟩

/-- An excluded entry leaves the scan result untouched. -/
theorem scan_step_excluded (cfg : Config) (now : DateTimeUtc) (r : ScanResult)
    (e : WalkEntry) (h : cfg.is_path_excluded e.path = true) :
    scan_step cfg now r e = r := by
  unfold scan_step
  rw [if_pos h]

/-- The metadata map of one scan step: unchanged, or one upsert at the
entry's own (non-excluded) path. -/
theorem scan_step_metadata (cfg : Config) (now : DateTimeUtc) (r : ScanResult)
    (e : WalkEntry) :
    (scan_step cfg now r e).metadata = r.metadata ∨
    (cfg.is_path_excluded e.path = false ∧ ∃ md,
      (scan_step cfg now r e).metadata =
        insertKV r.metadata e.path (analyze_file now e.path md)) := by
  unfold scan_step
  by_cases hexc : cfg.is_path_excluded e.path = true
  · rw [if_pos hexc]
    exact Or.inl rfl
  · rw [if_neg hexc]
    cases hm : e.meta with
    | none => exact Or.inl rfl
    | some md =>
      refine Or.inr ⟨Bool.eq_false_iff.mpr hexc, md, ?_⟩
      cases hext : pathExtension e.path <;> simp [hext]

/-- Folding the walk never creates a record keyed by an excluded path. -/
theorem scanFold_excluded_lookup_none (cfg : Config) (now : DateTimeUtc)
    (p : String) (hp : cfg.is_path_excluded p = true) :
    ∀ (entries : List WalkEntry) (r : ScanResult),
      lookupKV p r.metadata = none →
      lookupKV p ((entries.foldl (scan_step cfg now) r).metadata) = none := by
  intro entries
  induction entries with
  | nil => intro r h; simpa using h
  | cons e rest ih =>
    intro r h
    rw [List.foldl_cons]
    apply ih
    rcases scan_step_metadata cfg now r e with hm | ⟨hexc, md, hm⟩
    · rw [hm]; exact h
    · rw [hm]
      have hne : p ≠ e.path := by
        intro hcontr
        rw [hcontr] at hp
        rw [hp] at hexc
        cases hexc
      rw [lookupKV_insertKV_ne _ _ _ _ hne]
      exact h

/-- Excluded entries contribute nothing at all to the fold. -/
theorem scanFold_filter_excluded (cfg : Config) (now : DateTimeUtc) :
    ∀ (entries : List WalkEntry) (r : ScanResult),
      entries.foldl (scan_step cfg now) r =
        (entries.filter (fun e => !(cfg.is_path_excluded e.path))).foldl
          (scan_step cfg now) r := by
  intro entries
  induction entries with
  | nil => intro r; rfl
  | cons e rest ih =>
    intro r
    rw [List.foldl_cons]
    by_cases hexc : cfg.is_path_excluded e.path = true
    · rw [scan_step_excluded cfg now r e hexc]
      have hfe : (e :: rest).filter (fun e => !(cfg.is_path_excluded e.path)) =
          rest.filter (fun e => !(cfg.is_path_excluded e.path)) := by
        rw [List.filter_cons]
        simp [hexc]
      rw [hfe]
      exact ih r
    · have hfe : (e :: rest).filter (fun e => !(cfg.is_path_excluded e.path)) =
          e :: rest.filter (fun e => !(cfg.is_path_excluded e.path)) := by
        rw [List.filter_cons]
        simp [Bool.eq_false_iff.mpr hexc]
      rw [hfe, List.foldl_cons]
      exact ih (scan_step cfg now r e)

/-- C4: a configured excluded path is never a key of the metadata map of a
`ScanResult` produced by a walk with that configuration; excluded entries
produce no record and are not counted in any aggregate (dropping them from
the walk leaves the whole result unchanged). -/
theorem excluded_path_never_scanned (cfg : Config) (now : DateTimeUtc)
    (entries : List WalkEntry) (persist : ScanResult → Except String Unit)
    (p : String) (hp : p ∈ cfg.excluded_paths) :
    lookupKV p (scan_drive cfg now entries persist).metadata = none ∧
    scan_drive cfg now entries persist =
      scan_drive cfg now
        (entries.filter (fun e => !(cfg.is_path_excluded e.path))) persist := by
  have hpe : cfg.is_path_excluded p = true := by
    unfold Config.is_path_excluded
    simpa using hp
  constructor
  · unfold scan_drive
    exact scanFold_excluded_lookup_none cfg now p hpe entries emptyScanResult rfl
  · unfold scan_drive
    rw [scanFold_filter_excluded cfg now entries emptyScanResult]

/-- A concrete configuration excluding one path, for the C4 witness. -/
def sampleConfig : Config :=
  { use_ai_analysis := false, ollama_model := "default-model",
    ollama_url := "http://localhost:11434", excluded_paths := ["/home/u/secret.txt"] }

/-- A concrete metadata reading for the C4 and C10 witnesses. -/
def sampleSysMeta : SysMeta :=
  { size := 7, created := some { secs := 0, nsecs := 0 },
    modified := some { secs := 0, nsecs := 0 }, executable := false }

/-- Witness for C4: scanning a walk that visits the excluded file. -/
theorem excluded_path_never_scanned_witness :
    "/home/u/secret.txt" ∈ sampleConfig.excluded_paths ∧
    lookupKV "/home/u/secret.txt"
      (scan_drive sampleConfig { secs := 0, nsecs := 0 }
        [{ path := "/home/u/secret.txt", meta := some sampleSysMeta }]
        (fun _ => .ok ())).metadata = none :=
  ⟨by decide,
   (excluded_path_never_scanned sampleConfig { secs := 0, nsecs := 0 }
      [{ path := "/home/u/secret.txt", meta := some sampleSysMeta }]
      (fun _ => .ok ()) "/home/u/secret.txt" (by decide)).1⟩

/-! ### Aggregate invariants of the scan (C10) -/

/-- Sum of all per-extension counts in `file_types`. -/
def sumCounts (file_types : List (String × Nat)) : Nat :=
  (file_types.map Prod.snd).sum

/-- Sum of the recorded sizes of all metadata entries. -/
def sizesSum (metadata : List (String × FileMetadata)) : Nat :=
  (metadata.map (fun kv => kv.2.size)).sum

theorem analyze_file_size (now : DateTimeUtc) (path : String) (md : SysMeta) :
    (analyze_file now path md).size = md.size := rfl

theorem mapReplace_of_not_mem {κ α : Type} [DecidableEq κ] (m : List (κ × α))
    (k : κ) (v : α) (h : k ∉ m.map Prod.fst) :
    m.map (fun kv => if kv.1 = k then (k, v) else kv) = m := by
  induction m with
  | nil => rfl
  | cons kv rest ih =>
    rw [List.map_cons, List.mem_cons] at h
    push_neg at h
    rw [List.map_cons, if_neg (fun hh => h.1 hh.symm), ih h.2]

theorem insertKV_cons_ne {κ α : Type} [DecidableEq κ] (kv : κ × α)
    (rest : List (κ × α)) (k : κ) (v : α) (h : kv.1 ≠ k) :
    insertKV (kv :: rest) k v = kv :: insertKV rest k v := by
  unfold insertKV
  by_cases hm : k ∈ rest.map Prod.fst
  · rw [if_pos (by simp [hm]), if_pos hm, List.map_cons, if_neg h]
  · rw [if_neg ?_, if_neg hm]
    · rfl
    · rw [List.map_cons, List.mem_cons]
      push_neg
      exact ⟨fun hh => h hh.symm, hm⟩

theorem keys_nodup_insertKV {κ α : Type} [DecidableEq κ] (m : List (κ × α))
    (k : κ) (v : α) (h : (m.map Prod.fst).Nodup) :
    ((insertKV m k v).map Prod.fst).Nodup := by
  unfold insertKV
  split
  · rw [keys_mapReplace]
    exact h
  · rename_i hm
    rw [List.map_append]
    simp only [List.map_cons, List.map_nil]
    rw [List.nodup_append]
    refine ⟨h, List.nodup_singleton k, ?_⟩
    intro a ha hb
    rw [List.mem_singleton] at hb
    exact hm (hb ▸ ha)

theorem sumCounts_insertKV_bump (ft : List (String × Nat)) (k : String)
    (h : (ft.map Prod.fst).Nodup) :
    sumCounts (insertKV ft k ((lookupKV k ft).getD 0 + 1)) = sumCounts ft + 1 := by
  induction ft with
  | nil => rfl
  | cons kv rest ih =>
    rw [List.map_cons, List.nodup_cons] at h
    by_cases hk : kv.1 = k
    · have hknotr : k ∉ rest.map Prod.fst := hk ▸ h.1
      have hlk : lookupKV k (kv :: rest) = some kv.2 := by simp [lookupKV, hk]
      have hins : insertKV (kv :: rest) k ((lookupKV k (kv :: rest)).getD 0 + 1) =
          (k, kv.2 + 1) :: rest := by
        unfold insertKV
        rw [if_pos (by simp [hk]), List.map_cons, if_pos hk,
          mapReplace_of_not_mem rest k _ hknotr, hlk]
        rfl
      rw [hins]
      simp only [sumCounts, List.map_cons, List.sum_cons]
      omega
    · have hlk : lookupKV k (kv :: rest) = lookupKV k rest := by simp [lookupKV, hk]
      rw [hlk, insertKV_cons_ne kv rest k _ hk]
      have := ih h.2
      simp only [sumCounts, List.map_cons, List.sum_cons] at *
      omega

/-- The full shape of one non-skipped scan step. -/
theorem scan_step_shape (cfg : Config) (now : DateTimeUtc) (r : ScanResult)
    (e : WalkEntry) :
    scan_step cfg now r e = r ∨
    ∃ md, e.meta = some md ∧
      scan_step cfg now r e =
        { total_files := r.total_files + 1
          total_size := r.total_size + md.size
          file_types :=
            match pathExtension e.path with
            | some ext => insertKV r.file_types (strToLower ext)
                ((lookupKV (strToLower ext) r.file_types).getD 0 + 1)
            | none => r.file_types
          metadata := insertKV r.metadata e.path (analyze_file now e.path md) } := by
  unfold scan_step
  by_cases hexc : cfg.is_path_excluded e.path = true
  · rw [if_pos hexc]
    exact Or.inl rfl
  · rw [if_neg hexc]
    cases hm : e.meta with
    | none => exact Or.inl rfl
    | some md =>
      refine Or.inr ⟨md, rfl, ?_⟩
      cases hext : pathExtension e.path <;> simp [hext]

/-- Folding the walk preserves the aggregate invariants, given that the
remaining entries' paths are fresh and pairwise distinct. -/
theorem scanFold_aggregates (cfg : Config) (now : DateTimeUtc) :
    ∀ (entries : List WalkEntry) (r : ScanResult),
      (entries.map WalkEntry.path).Nodup →
      (∀ e ∈ entries, e.path ∉ r.metadata.map Prod.fst) →
      r.total_files = r.metadata.length →
      r.total_size = sizesSum r.metadata →
      sumCounts r.file_types ≤ r.total_files →
      (r.file_types.map Prod.fst).Nodup →
      (entries.foldl (scan_step cfg now) r).total_files =
          (entries.foldl (scan_step cfg now) r).metadata.length ∧
        (entries.foldl (scan_step cfg now) r).total_size =
          sizesSum (entries.foldl (scan_step cfg now) r).metadata ∧
        sumCounts (entries.foldl (scan_step cfg now) r).file_types ≤
          (entries.foldl (scan_step cfg now) r).total_files := by
  intro entries
  induction entries with
  | nil => exact fun r _ _ h1 h2 h3 _ => ⟨h1, h2, h3⟩
  | cons e rest ih =>
    intro r hnd hfresh h1 h2 h3 h4
    rw [List.map_cons, List.nodup_cons] at hnd
    rw [List.foldl_cons]
    rcases scan_step_shape cfg now r e with hs | ⟨md, hmd, hs⟩
    · rw [hs]
      exact ih r hnd.2 (fun e' he' => hfresh e' (List.mem_cons_of_mem e he'))
        h1 h2 h3 h4
    · have hknot : e.path ∉ r.metadata.map Prod.fst :=
        hfresh e (List.mem_cons_self e rest)
      have hinsmd : insertKV r.metadata e.path (analyze_file now e.path md) =
          r.metadata ++ [(e.path, analyze_file now e.path md)] :=
        insertKV_of_not_mem _ _ _ hknot
      rw [hs]
      apply ih
      · exact hnd.2
      · intro e' he'
        rw [mem_keys_insertKV]
        push_neg
        refine ⟨hfresh e' (List.mem_cons_of_mem e he'), ?_⟩
        intro hcontr
        exact hnd.1 (hcontr ▸ List.mem_map.mpr ⟨e', he', rfl⟩)
      · rw [hinsmd]
        simp [h1]
      · rw [hinsmd]
        simp [sizesSum, h2, analyze_file_size]
      · cases hext : pathExtension e.path with
        | none => simp only [hext]; omega
        | some ext =>
          simp only [hext]
          rw [sumCounts_insertKV_bump _ _ h4]
          omega
      · cases hext : pathExtension e.path with
        | none => simp only [hext]; exact h4
        | some ext =>
          simp only [hext]
          exact keys_nodup_insertKV _ _ _ h4

/-- C10: for every `ScanResult` returned by `scan_drive` over a walk that
visits each path once, `total_files` equals the number of metadata entries,
`total_size` equals the sum of their recorded sizes, and the per-extension
counts sum to at most `total_files` (extension-less files are counted but
contribute no `file_types` entry). -/
theorem scan_result_aggregates (cfg : Config) (now : DateTimeUtc)
    (entries : List WalkEntry) (persist : ScanResult → Except String Unit)
    (hnd : (entries.map WalkEntry.path).Nodup) :
    (scan_drive cfg now entries persist).total_files =
      (scan_drive cfg now entries persist).metadata.length ∧
    (scan_drive cfg now entries persist).total_size =
      sizesSum (scan_drive cfg now entries persist).metadata ∧
    sumCounts (scan_drive cfg now entries persist).file_types ≤
      (scan_drive cfg now entries persist).total_files := by
  unfold scan_drive
  exact scanFold_aggregates cfg now entries emptyScanResult hnd
    (by intro e _ h; simp [emptyScanResult] at h) rfl rfl (by simp [emptyScanResult, sumCounts])
    (by simp [emptyScanResult])

/-- Witness for C10: a two-file walk, one file with an extension and one
without. -/
theorem scan_result_aggregates_witness :
    (([{ path := "/d/a.txt", meta := some sampleSysMeta },
       { path := "/d/noext", meta := some sampleSysMeta }] :
        List WalkEntry).map WalkEntry.path).Nodup ∧
    ((scan_drive sampleConfig { secs := 0, nsecs := 0 }
        [{ path := "/d/a.txt", meta := some sampleSysMeta },
         { path := "/d/noext", meta := some sampleSysMeta }]
        (fun _ => .ok ())).total_files =
      (scan_drive sampleConfig { secs := 0, nsecs := 0 }
        [{ path := "/d/a.txt", meta := some sampleSysMeta },
         { path := "/d/noext", meta := some sampleSysMeta }]
        (fun _ => .ok ())).metadata.length ∧
    (scan_drive sampleConfig { secs := 0, nsecs := 0 }
        [{ path := "/d/a.txt", meta := some sampleSysMeta },
         { path := "/d/noext", meta := some sampleSysMeta }]
        (fun _ => .ok ())).total_size =
      sizesSum (scan_drive sampleConfig { secs := 0, nsecs := 0 }
        [{ path := "/d/a.txt", meta := some sampleSysMeta },
         { path := "/d/noext", meta := some sampleSysMeta }]
        (fun _ => .ok ())).metadata ∧
    sumCounts (scan_drive sampleConfig { secs := 0, nsecs := 0 }
        [{ path := "/d/a.txt", meta := some sampleSysMeta },
         { path := "/d/noext", meta := some sampleSysMeta }]
        (fun _ => .ok ())).file_types ≤
      (scan_drive sampleConfig { secs := 0, nsecs := 0 }
        [{ path := "/d/a.txt", meta := some sampleSysMeta },
         { path := "/d/noext", meta := some sampleSysMeta }]
        (fun _ => .ok ())).total_files) :=
  ⟨by decide,
   scan_result_aggregates sampleConfig { secs := 0, nsecs := 0 }
     [{ path := "/d/a.txt", meta := some sampleSysMeta },
      { path := "/d/noext", meta := some sampleSysMeta }]
     (fun _ => .ok ()) (by decide)⟩

/-! ### Duplicate detection (C2) -/

/-- Occurrence count of one element in a list. -/
def countOcc {α : Type} [DecidableEq α] (x : α) : List α → Nat
  | [] => 0
  | y :: l => (if y = x then 1 else 0) + countOcc x l

theorem countOcc_append {α : Type} [DecidableEq α] (x : α) (l₁ l₂ : List α) :
    countOcc x (l₁ ++ l₂) = countOcc x l₁ + countOcc x l₂ := by
  induction l₁ with
  | nil =>
    show countOcc x l₂ = 0 + countOcc x l₂
    omega
  | cons y l ih =>
    show (if y = x then 1 else 0) + countOcc x (l ++ l₂) =
      ((if y = x then 1 else 0) + countOcc x l) + countOcc x l₂
    rw [ih]
    omega

theorem countOcc_eq_zero_of_not_mem {α : Type} [DecidableEq α] (x : α) (l : List α)
    (h : x ∉ l) : countOcc x l = 0 := by
  induction l with
  | nil => rfl
  | cons y l ih =>
    rw [List.mem_cons] at h
    push_neg at h
    show (if y = x then 1 else 0) + countOcc x l = 0
    rw [if_neg (fun he : y = x => h.1 he.symm), ih h.2]

theorem countOcc_eq_one_of_mem {α : Type} [DecidableEq α] (x : α) (l : List α)
    (hnd : l.Nodup) (h : x ∈ l) : countOcc x l = 1 := by
  induction l with
  | nil => cases h
  | cons y l ih =>
    rw [List.nodup_cons] at hnd
    show (if y = x then 1 else 0) + countOcc x l = 1
    rcases List.mem_cons.mp h with rfl | h'
    · rw [if_pos rfl, countOcc_eq_zero_of_not_mem x l hnd.1]
    · rw [if_neg (fun he : y = x => hnd.1 (he.symm ▸ h')), ih hnd.2 h']

theorem countOcc_filter_of_pos {α : Type} [DecidableEq α] (x : α) (l : List α)
    (p : α → Bool) (hp : p x = true) : countOcc x (l.filter p) = countOcc x l := by
  induction l with
  | nil => rfl
  | cons y l ih =>
    rw [List.filter_cons]
    by_cases hy : p y = true
    · rw [if_pos hy]
      show (if y = x then 1 else 0) + countOcc x (l.filter p) =
        (if y = x then 1 else 0) + countOcc x l
      rw [ih]
    · have hxy : ¬ y = x := fun he => hy (he ▸ hp)
      rw [if_neg hy, ih]
      show countOcc x l = (if y = x then 1 else 0) + countOcc x l
      rw [if_neg hxy]
      omega

theorem countOcc_flatMap {α β : Type} [DecidableEq β] (f : α → List β) (l : List α) (b : β) :
    countOcc b (l.flatMap f) = (l.map (fun a => countOcc b (f a))).sum := by
  induction l with
  | nil => rfl
  | cons x xs ih =>
    rw [List.flatMap_cons, countOcc_append, ih, List.map_cons, List.sum_cons]

theorem sum_map_add {α : Type} (l : List α) (f g : α → Nat) :
    (l.map (fun a => f a + g a)).sum = (l.map f).sum + (l.map g).sum := by
  induction l with
  | nil => rfl
  | cons x xs ih =>
    simp only [List.map_cons, List.sum_cons, ih]
    omega

theorem sum_map_single_one {α : Type} (l : List α) (f : α → Nat) (s₀ : α)
    (hnd : l.Nodup) (hs : s₀ ∈ l) (h1 : f s₀ = 1)
    (h0 : ∀ s ∈ l, s ≠ s₀ → f s = 0) : (l.map f).sum = 1 := by
  induction l with
  | nil => cases hs
  | cons x xs ih =>
    rw [List.nodup_cons] at hnd
    rw [List.map_cons, List.sum_cons]
    rcases List.mem_cons.mp hs with rfl | hs'
    · have hz : ∀ y ∈ xs.map f, y = 0 := by
        intro y hy
        rcases List.mem_map.mp hy with ⟨s, hsx, rfl⟩
        exact h0 s (List.mem_cons_of_mem _ hsx) (fun he => hnd.1 (he ▸ hsx))
      rw [h1, List.sum_eq_zero hz]
      rfl
    · have hx0 : f x = 0 :=
        h0 x (List.mem_cons_self _ _) (fun he => hnd.1 (he ▸ hs'))
      rw [hx0, ih hnd.2 hs'
        (fun s hsx hne => h0 s (List.mem_cons_of_mem _ hsx) hne)]

theorem mem_allPairs {α : Type} (l : List α) (p q : α) (h : (p, q) ∈ allPairs l) :
    p ∈ l ∧ q ∈ l := by
  induction l with
  | nil => cases h
  | cons x xs ih =>
    simp only [allPairs, List.mem_append] at h
    rcases h with h | h
    · rcases List.mem_map.mp h with ⟨y, hy, heq⟩
      cases heq
      exact ⟨List.mem_cons_self _ _, List.mem_cons_of_mem _ hy⟩
    · rcases ih h with ⟨hp, hq⟩
      exact ⟨List.mem_cons_of_mem _ hp, List.mem_cons_of_mem _ hq⟩

theorem countOcc_map_pair {α : Type} [DecidableEq α] (xs : List α) (x p q : α) :
    countOcc (p, q) (xs.map (fun y => (x, y))) = if p = x then countOcc q xs else 0 := by
  induction xs with
  | nil => simp [countOcc]
  | cons z zs ih =>
    rw [List.map_cons]
    show (if (x, z) = (p, q) then 1 else 0) + countOcc (p, q) (zs.map (fun y => (x, y))) =
      if p = x then (if z = q then 1 else 0) + countOcc q zs else 0
    rw [ih]
    split_ifs <;> simp_all [Prod.mk.injEq]

theorem countOcc_allPairs_unordered {α : Type} [DecidableEq α] (l : List α)
    (hnd : l.Nodup) (a b : α) (ha : a ∈ l) (hb : b ∈ l) (hab : a ≠ b) :
    countOcc (a, b) (allPairs l) + countOcc (b, a) (allPairs l) = 1 := by
  induction l with
  | nil => cases ha
  | cons x xs ih =>
    rw [List.nodup_cons] at hnd
    simp only [allPairs]
    rw [countOcc_append, countOcc_append, countOcc_map_pair, countOcc_map_pair]
    rcases List.mem_cons.mp ha with rfl | ha' <;> rcases List.mem_cons.mp hb with hbx | hb'
    · exact absurd hbx.symm hab
    · rw [if_pos rfl, if_neg (fun h : b = a => hab h.symm),
        countOcc_eq_one_of_mem b xs hnd.2 hb',
        countOcc_eq_zero_of_not_mem (a, b) (allPairs xs)
          (fun h => hnd.1 (mem_allPairs xs a b h).1),
        countOcc_eq_zero_of_not_mem (b, a) (allPairs xs)
          (fun h => hnd.1 (mem_allPairs xs b a h).2)]
    · subst hbx
      rw [if_neg hab, if_pos rfl, countOcc_eq_one_of_mem a xs hnd.2 ha',
        countOcc_eq_zero_of_not_mem (a, b) (allPairs xs)
          (fun h => hnd.1 (mem_allPairs xs a b h).2),
        countOcc_eq_zero_of_not_mem (b, a) (allPairs xs)
          (fun h => hnd.1 (mem_allPairs xs b a h).1)]
    · have hx1 : a ≠ x := fun h => hnd.1 (h ▸ ha')
      have hx2 : b ≠ x := fun h => hnd.1 (h ▸ hb')
      rw [if_neg hx1, if_neg hx2]
      have := ih hnd.2 ha' hb'
      omega

/-- In a map with pairwise-distinct keys, a key determines its record. -/
theorem mem_pair_unique {κ α : Type} (m : List (κ × α))
    (hnd : (m.map Prod.fst).Nodup) {a : κ} {v₁ v₂ : α}
    (h₁ : (a, v₁) ∈ m) (h₂ : (a, v₂) ∈ m) : v₁ = v₂ := by
  induction m with
  | nil => cases h₁
  | cons kv rest ih =>
    rw [List.map_cons, List.nodup_cons] at hnd
    rcases List.mem_cons.mp h₁ with he₁ | ht₁ <;> rcases List.mem_cons.mp h₂ with he₂ | ht₂
    · have := he₁.trans he₂.symm
      exact (Prod.mk.injEq _ _ _ _).mp this |>.2
    · exfalso
      apply hnd.1
      rw [← he₁]
      exact List.mem_map.mpr ⟨(a, v₂), ht₂, rfl⟩
    · exfalso
      apply hnd.1
      rw [← he₂]
      exact List.mem_map.mpr ⟨(a, v₁), ht₁, rfl⟩
    · exact ih hnd.2 ht₁ ht₂

theorem mem_sizeBucket (metadata : Chunk) (s : Nat) (x : String) :
    x ∈ sizeBucket metadata s ↔ ∃ m, (x, m) ∈ metadata ∧ m.size = s := by
  unfold sizeBucket
  constructor
  · intro h
    rcases List.mem_map.mp h with ⟨kv, hkv, rfl⟩
    have hm := List.mem_filter.mp hkv
    exact ⟨kv.2, by simpa using hm.1, by simpa using hm.2⟩
  · rintro ⟨m, hm, hs⟩
    exact List.mem_map.mpr ⟨(x, m), List.mem_filter.mpr ⟨hm, by simpa using hs⟩, rfl⟩

theorem sizeBucket_nodup (metadata : Chunk)
    (hnd : (metadata.map Prod.fst).Nodup) (s : Nat) :
    (sizeBucket metadata s).Nodup := by
  unfold sizeBucket
  exact List.Nodup.sublist ((List.filter_sublist metadata).map Prod.fst) hnd

/-- With distinct keys, a catalog entry's path lies in exactly the bucket of
its own recorded size. -/
theorem mem_sizeBucket_unique (metadata : Chunk)
    (hnd : (metadata.map Prod.fst).Nodup) {a : String} {ma : FileMetadata}
    (ha : (a, ma) ∈ metadata) (s : Nat) :
    a ∈ sizeBucket metadata s ↔ ma.size = s := by
  rw [mem_sizeBucket]
  constructor
  · rintro ⟨m, hm, hs⟩
    rw [← hs, mem_pair_unique metadata hnd ha hm]
  · intro hs
    exact ⟨ma, ha, hs⟩

theorem one_lt_length_of_two_mem {α : Type} (l : List α) (a b : α)
    (ha : a ∈ l) (hb : b ∈ l) (hab : a ≠ b) : 1 < l.length := by
  rcases l with _ | ⟨x, _ | ⟨y, t⟩⟩
  · cases ha
  · rw [List.mem_singleton] at ha hb
    exact absurd (ha.trans hb.symm) hab
  · simp only [List.length_cons]
    omega

theorem length_le_one_of_all_eq {α : Type} (l : List α) (a : α)
    (hnd : l.Nodup) (hall : ∀ z ∈ l, z = a) : l.length ≤ 1 := by
  rcases l with _ | ⟨x, _ | ⟨y, t⟩⟩
  · simp
  · simp
  · exfalso
    rw [List.nodup_cons] at hnd
    have hx := hall x (List.mem_cons_self _ _)
    have hy := hall y (List.mem_cons_of_mem _ (List.mem_cons_self _ _))
    exact hnd.1 (by rw [hx, hy]; exact List.mem_cons_self _ _)

theorem mem_comparedPairs (metadata : Chunk) (x y : String)
    (h : (x, y) ∈ comparedPairs metadata) :
    ∃ s, s ∈ sizesOf metadata ∧ 1 < (sizeBucket metadata s).length ∧
      (x, y) ∈ allPairs (sizeBucket metadata s) := by
  unfold comparedPairs at h
  rcases List.mem_flatMap.mp h with ⟨s, hs, hp⟩
  by_cases hl : (sizeBucket metadata s).length > 1
  · rw [if_pos hl] at hp
    exact ⟨s, hs, hl, hp⟩
  · rw [if_neg hl] at hp
    cases hp

theorem find_duplicate_files_subset_compared (fs : String → Option (List Nat))
    (metadata : Chunk) (x y : String)
    (h : (x, y) ∈ find_duplicate_files fs metadata) :
    (x, y) ∈ comparedPairs metadata := by
  unfold find_duplicate_files at h
  unfold comparedPairs
  rcases List.mem_flatMap.mp h with ⟨s, hs, hp⟩
  refine List.mem_flatMap.mpr ⟨s, hs, ?_⟩
  by_cases hl : (sizeBucket metadata s).length > 1
  · rw [if_pos hl] at hp ⊢
    exact (List.mem_filter.mp hp).1
  · rw [if_neg hl] at hp
    cases hp

/-- C2: for a catalog with distinct paths: two entries of equal recorded
size and byte-identical readable content are reported as exactly one
unordered pair; a pair of equal recorded size but differing content is
never reported; and an entry whose recorded size no other entry shares is
never compared and never reported. -/
theorem find_duplicate_files_correct (fs : String → Option (List Nat))
    (metadata : Chunk) (hnd : (metadata.map Prod.fst).Nodup)
    (a b : String) (ma mb : FileMetadata)
    (ha : (a, ma) ∈ metadata) (hb : (b, mb) ∈ metadata) (hab : a ≠ b) :
    (ma.size = mb.size → (∃ c, fs a = some c ∧ fs b = some c) →
      countOcc (a, b) (find_duplicate_files fs metadata) +
        countOcc (b, a) (find_duplicate_files fs metadata) = 1) ∧
    (ma.size = mb.size → ∀ ca cb, fs a = some ca → fs b = some cb → ca ≠ cb →
      (a, b) ∉ find_duplicate_files fs metadata ∧
      (b, a) ∉ find_duplicate_files fs metadata) ∧
    ((∀ kv ∈ metadata, kv.1 ≠ a → kv.2.size ≠ ma.size) →
      (∀ x, (a, x) ∉ comparedPairs metadata ∧ (x, a) ∉ comparedPairs metadata) ∧
      ∀ x, (a, x) ∉ find_duplicate_files fs metadata ∧
           (x, a) ∉ find_duplicate_files fs metadata) := by
  refine ⟨?_, ?_, ?_⟩
  · -- exactly one unordered pair
    rintro hsize ⟨c, hfa, hfb⟩
    have hident : are_files_identical fs a b = true := by
      unfold are_files_identical
      rw [hfa, hfb]
      simp
    have hident' : are_files_identical fs b a = true := by
      unfold are_files_identical
      rw [hfa, hfb]
      simp
    simp only [find_duplicate_files]
    rw [countOcc_flatMap, countOcc_flatMap, ← sum_map_add]
    have has : a ∈ sizeBucket metadata ma.size :=
      (mem_sizeBucket_unique metadata hnd ha _).mpr rfl
    have hbs : b ∈ sizeBucket metadata ma.size :=
      (mem_sizeBucket_unique metadata hnd hb _).mpr hsize.symm
    refine sum_map_single_one _ _ ma.size (List.nodup_dedup _)
      (List.mem_dedup.mpr (List.mem_map.mpr ⟨(a, ma), ha, rfl⟩)) ?_ ?_
    · have hlen : (sizeBucket metadata ma.size).length > 1 :=
        one_lt_length_of_two_mem _ a b has hbs hab
      rw [if_pos hlen,
        countOcc_filter_of_pos (a, b) _ _ hident,
        countOcc_filter_of_pos (b, a) _ _ hident']
      exact countOcc_allPairs_unordered _ (sizeBucket_nodup metadata hnd _) a b has hbs hab
    · intro s hsm hne
      have hna : a ∉ sizeBucket metadata s := fun h =>
        hne (((mem_sizeBucket_unique metadata hnd ha s).mp h) ▸ rfl)
      by_cases hl : (sizeBucket metadata s).length > 1
      · rw [if_pos hl]
        rw [countOcc_eq_zero_of_not_mem (a, b) _
            (fun hm => hna (mem_allPairs _ _ _ ((List.mem_filter.mp hm).1)).1),
          countOcc_eq_zero_of_not_mem (b, a) _
            (fun hm => hna (mem_allPairs _ _ _ ((List.mem_filter.mp hm).1)).2)]
      · rw [if_neg hl]
        rfl
  · -- differing content is never reported
    intro _ ca cb hca hcb hne
    have hf : are_files_identical fs a b = false := by
      unfold are_files_identical
      rw [hca, hcb]
      simp [hne]
    have hf' : are_files_identical fs b a = false := by
      unfold are_files_identical
      rw [hca, hcb]
      simp [Ne.symm hne]
    constructor <;> intro hmem
    · have := mem_find_duplicate_files_identical fs metadata a b hmem
      rw [hf] at this
      cases this
    · have := mem_find_duplicate_files_identical fs metadata b a hmem
      rw [hf'] at this
      cases this
  · -- a unique size is never compared, never reported
    intro huniq
    have hcmp : ∀ x, (a, x) ∉ comparedPairs metadata ∧ (x, a) ∉ comparedPairs metadata := by
      intro x
      have hbucket : ∀ s, a ∈ sizeBucket metadata s →
          (sizeBucket metadata s).length ≤ 1 := by
        intro s hain
        have hseq : ma.size = s := (mem_sizeBucket_unique metadata hnd ha s).mp hain
        have hall : ∀ z ∈ sizeBucket metadata s, z = a := by
          intro z hz
          rcases (mem_sizeBucket metadata s z).mp hz with ⟨m, hm, hms⟩
          by_contra hzne
          exact huniq (z, m) hm hzne (hms.trans hseq.symm)
        exact length_le_one_of_all_eq _ a (sizeBucket_nodup metadata hnd s) hall
      constructor <;> intro hmem
      · obtain ⟨s, _, hlen, hpair⟩ := mem_comparedPairs metadata _ _ hmem
        have := hbucket s (mem_allPairs _ _ _ hpair).1
        omega
      · obtain ⟨s, _, hlen, hpair⟩ := mem_comparedPairs metadata _ _ hmem
        have := hbucket s (mem_allPairs _ _ _ hpair).2
        omega
    refine ⟨hcmp, fun x => ⟨fun hmem => ?_, fun hmem => ?_⟩⟩
    · exact (hcmp x).1 (find_duplicate_files_subset_compared fs metadata _ _ hmem)
    · exact (hcmp x).2 (find_duplicate_files_subset_compared fs metadata _ _ hmem)

/-- Concrete file contents for the C2 witness: `/x` and `/y` are identical,
`/w` has the same size but different bytes, `/z` has a unique size. -/
def sampleFs : String → Option (List Nat) := fun p =>
  if p = "/x" then some [1, 2]
  else if p = "/y" then some [1, 2]
  else if p = "/w" then some [9, 9]
  else if p = "/z" then some [3, 3, 3, 3, 3]
  else none

def sampleFMx : FileMetadata := { sampleDocumentFM with path := "/x", size := 2 }

def sampleFMy : FileMetadata := { sampleDocumentFM with path := "/y", size := 2 }

def sampleFMw : FileMetadata := { sampleDocumentFM with path := "/w", size := 2 }

def sampleFMz : FileMetadata := { sampleDocumentFM with path := "/z", size := 5 }

/-- Concrete catalog for the C2 witness. -/
def sampleCatalog : Chunk :=
  [("/x", sampleFMx), ("/y", sampleFMy), ("/w", sampleFMw), ("/z", sampleFMz)]

/-- Witness for C2 on the concrete catalog: the identical same-size pair is
reported exactly once, the differing same-size pair is never reported, and
the unique-size file is never compared. -/
theorem find_duplicate_files_correct_witness :
    (countOcc ("/x", "/y") (find_duplicate_files sampleFs sampleCatalog) +
      countOcc ("/y", "/x") (find_duplicate_files sampleFs sampleCatalog) = 1) ∧
    (("/x", "/w") ∉ find_duplicate_files sampleFs sampleCatalog ∧
     ("/w", "/x") ∉ find_duplicate_files sampleFs sampleCatalog) ∧
    (∀ x, ("/z", x) ∉ comparedPairs sampleCatalog ∧
          (x, "/z") ∉ comparedPairs sampleCatalog) :=
  ⟨(find_duplicate_files_correct sampleFs sampleCatalog (by decide)
      "/x" "/y" sampleFMx sampleFMy (List.mem_cons_self _ _)
      (List.mem_cons_of_mem _ (List.mem_cons_self _ _)) (by decide)).1
      rfl ⟨[1, 2], by decide, by decide⟩,
   (find_duplicate_files_correct sampleFs sampleCatalog (by decide)
      "/x" "/w" sampleFMx sampleFMw (List.mem_cons_self _ _)
      (List.mem_cons_of_mem _ (List.mem_cons_of_mem _ (List.mem_cons_self _ _)))
      (by decide)).2.1 rfl [1, 2] [9, 9] (by decide) (by decide) (by decide),
   ((find_duplicate_files_correct sampleFs sampleCatalog (by decide)
      "/z" "/x" sampleFMz sampleFMx
      (List.mem_cons_of_mem _ (List.mem_cons_of_mem _
        (List.mem_cons_of_mem _ (List.mem_cons_self _ _))))
      (List.mem_cons_self _ _) (by decide)).2.2 (by decide)).1⟩

/-! ### Catalog round-trip (C1) -/

theorem truncFM_path (m : FileMetadata) : (truncFM m).path = m.path := rfl

theorem lookupKV_mem {κ α : Type} [DecidableEq κ] (k : κ) (m : List (κ × α)) (v : α)
    (h : lookupKV k m = some v) : (k, v) ∈ m := by
  induction m with
  | nil => cases h
  | cons kv rest ih =>
    unfold lookupKV at h
    by_cases hk : kv.1 = k
    · rw [if_pos hk] at h
      injection h with hv
      exact List.mem_cons.mpr (Or.inl (by rw [← hk, ← hv]))
    · rw [if_neg hk] at h
      exact List.mem_cons_of_mem _ (ih h)

theorem lookupKV_eq_some_iff_mem {κ α : Type} [DecidableEq κ] (m : List (κ × α))
    (hnd : (m.map Prod.fst).Nodup) (k : κ) (v : α) :
    lookupKV k m = some v ↔ (k, v) ∈ m := by
  constructor
  · exact lookupKV_mem k m v
  · intro hmem
    induction m with
    | nil => cases hmem
    | cons kv rest ih =>
      rw [List.map_cons, List.nodup_cons] at hnd
      rcases List.mem_cons.mp hmem with he | ht
      · cases he.symm
        simp [lookupKV]
      · by_cases hk : kv.1 = k
        · exfalso
          apply hnd.1
          rw [hk]
          exact List.mem_map.mpr ⟨(k, v), ht, rfl⟩
        · unfold lookupKV
          rw [if_neg hk]
          exact ih hnd.2 ht

theorem lookupKV_perm {κ α : Type} [DecidableEq κ] (m₁ m₂ : List (κ × α))
    (hperm : m₁.Perm m₂) (hnd : (m₁.map Prod.fst).Nodup) (k : κ) :
    lookupKV k m₁ = lookupKV k m₂ := by
  have hnd₂ : (m₂.map Prod.fst).Nodup := ((hperm.map Prod.fst).nodup_iff).mp hnd
  cases h₁ : lookupKV k m₁ with
  | some v =>
    have hmem := lookupKV_mem k m₁ v h₁
    exact ((lookupKV_eq_some_iff_mem m₂ hnd₂ k v).mpr (hperm.mem_iff.mp hmem)).symm
  | none =>
    have h₂ : lookupKV k m₂ = none := by
      rw [lookupKV_eq_none_iff]
      intro hk
      exact (lookupKV_eq_none_iff k m₁).mp h₁ ((hperm.map Prod.fst).mem_iff.mpr hk)
    rw [h₂]

theorem lookupKV_map_val {κ α β : Type} [DecidableEq κ] (m : List (κ × α))
    (f : α → β) (k : κ) :
    lookupKV k (m.map (fun kv => (kv.1, f kv.2))) = (lookupKV k m).map f := by
  induction m with
  | nil => rfl
  | cons kv rest ih =>
    by_cases hk : kv.1 = k <;> simp [lookupKV, hk, ih]

/-- All records across all chunk files, in store order. -/
def storeEntries (s : Store) : Chunk := s.flatMap Prod.snd

theorem storeEntries_cons (q : Nat × Chunk) (s : Store) :
    storeEntries (q :: s) = q.2 ++ storeEntries s := by
  simp [storeEntries]

theorem mem_getChunk (s : Store) (c : Nat) (kv : String × FileMetadata)
    (h : kv ∈ getChunk s c) : kv ∈ storeEntries s := by
  unfold getChunk at h
  cases hc : lookupKV c s with
  | none => rw [hc] at h; cases h
  | some ch =>
    rw [hc] at h
    exact List.mem_flatMap.mpr ⟨(c, ch), lookupKV_mem c s ch hc, h⟩

/-- Rewriting one chunk with itself plus appended records permutes the
store's records to the old ones plus the appended ones. -/
theorem storeEntries_upsert (s : Store) (hnd : (s.map Prod.fst).Nodup)
    (c : Nat) (ch : Chunk) :
    (storeEntries (insertKV s c (getChunk s c ++ ch))).Perm (storeEntries s ++ ch) := by
  induction s with
  | nil =>
    simp [storeEntries, insertKV, getChunk, lookupKV]
  | cons p s' ih =>
    rw [List.map_cons, List.nodup_cons] at hnd
    by_cases hc : p.1 = c
    · have hget : getChunk (p :: s') c = p.2 := by
        unfold getChunk lookupKV
        rw [if_pos hc]
        rfl
      have hckeys : c ∉ s'.map Prod.fst := hc ▸ hnd.1
      have hins : insertKV (p :: s') c (getChunk (p :: s') c ++ ch) =
          (c, p.2 ++ ch) :: s' := by
        unfold insertKV
        rw [if_pos (by rw [List.map_cons, List.mem_cons]; exact Or.inl hc.symm),
          List.map_cons, if_pos hc, mapReplace_of_not_mem s' c _ hckeys, hget]
      rw [hins, storeEntries_cons, storeEntries_cons, List.append_assoc,
        List.append_assoc]
      exact List.perm_append_comm.append_left p.2
    · have hlk : lookupKV c (p :: s') = lookupKV c s' := by
        show (if p.1 = c then some p.2 else lookupKV c s') = lookupKV c s'
        rw [if_neg hc]
      have hget : getChunk (p :: s') c = getChunk s' c := by
        unfold getChunk
        rw [hlk]
      have hins : insertKV (p :: s') c (getChunk (p :: s') c ++ ch) =
          p :: insertKV s' c (getChunk s' c ++ ch) := by
        rw [hget]
        exact insertKV_cons_ne p s' c _ hc
      rw [hins, storeEntries_cons, storeEntries_cons, List.append_assoc]
      exact (ih hnd.2).append_left p.2

/-- Saving globally fresh, pairwise-distinct records adds exactly their
serialized forms to the store, wherever the chunk boundaries fall. -/
theorem saveChunksAux_perm (chunk_size : Nat) :
    ∀ (rest : List (String × FileMetadata)) (chunk idx : Nat) (s : Store),
      (s.map Prod.fst).Nodup →
      (rest.map Prod.fst).Nodup →
      (∀ kv ∈ rest, kv.1 ∉ (storeEntries s).map Prod.fst) →
      (storeEntries (saveChunksAux chunk_size rest chunk idx s)).Perm
        (storeEntries s ++ rest.map (fun kv => (kv.1, truncFM kv.2))) := by
  intro rest
  induction rest with
  | nil =>
    intro chunk idx s _ _ _
    simp [saveChunksAux]
  | cons km rest' ih =>
    intro chunk idx s hs hrest hfresh
    obtain ⟨k, m⟩ := km
    rw [List.map_cons, List.nodup_cons] at hrest
    have hkfresh : k ∉ (storeEntries s).map Prod.fst :=
      hfresh (k, m) (List.mem_cons_self _ _)
    simp only [saveChunksAux]
    have hkchunk : ∀ c, k ∉ (getChunk s c).map Prod.fst := by
      intro c hk
      rcases List.mem_map.mp hk with ⟨kv, hkv, rfl⟩
      exact hkfresh (List.mem_map.mpr ⟨kv, mem_getChunk s c kv hkv, rfl⟩)
    rw [insertKV_of_not_mem _ _ _ (hkchunk _)]
    have hperm₁ := storeEntries_upsert s hs
      (if idx % chunk_size = 0 then chunk + 1 else chunk) [(k, truncFM m)]
    have hs₁nd : ((insertKV s (if idx % chunk_size = 0 then chunk + 1 else chunk)
        (getChunk s (if idx % chunk_size = 0 then chunk + 1 else chunk) ++
          [(k, truncFM m)])).map Prod.fst).Nodup :=
      keys_nodup_insertKV s _ _ hs
    have hfresh' : ∀ kv ∈ rest', kv.1 ∉
        (storeEntries (insertKV s (if idx % chunk_size = 0 then chunk + 1 else chunk)
          (getChunk s (if idx % chunk_size = 0 then chunk + 1 else chunk) ++
            [(k, truncFM m)]))).map Prod.fst := by
      intro kv hkv hmem
      have hmem' := (hperm₁.map Prod.fst).mem_iff.mp hmem
      rw [List.map_append] at hmem'
      rcases List.mem_append.mp hmem' with h | h
      · exact hfresh kv (List.mem_cons_of_mem _ hkv) h
      · have hk : kv.1 = k := by simpa using h
        exact hrest.1 (hk ▸ List.mem_map.mpr ⟨kv, hkv, rfl⟩)
    refine (ih _ _ _ hs₁nd hrest.2 hfresh').trans ?_
    refine (hperm₁.append_right _).trans ?_
    rw [List.append_assoc]
    exact List.Perm.refl _

theorem isPrefixOf_append_self (l r : List Char) : l.isPrefixOf (l ++ r) = true := by
  induction l with
  | nil => simp [List.isPrefixOf]
  | cons c cs ih => simp [List.isPrefixOf, ih]

/-- Every chunk file written by the save path carries the
`metadata_chunk_` marker at the start of its name. -/
theorem chunkName_startsWith (n : Nat) :
    strStartsWith ("metadata_chunk_" ++ toString n ++ ".json") "metadata_chunk_" = true := by
  unfold strStartsWith
  rw [String.data_append, String.data_append, List.append_assoc]
  exact isPrefixOf_append_self _ _

theorem loadAux_chunks (s : Store) (acc : Chunk) :
    loadAux (s.map (fun ic =>
      { name := "metadata_chunk_" ++ toString ic.1 ++ ".json", isFile := true,
        parse := some ic.2 })) acc =
    .ok (s.foldl (fun acc ic => mergeChunk acc ic.2) acc) := by
  induction s generalizing acc with
  | nil => rfl
  | cons ic rest ih =>
    rw [List.map_cons, List.foldl_cons]
    unfold loadAux
    rw [if_pos ⟨rfl, chunkName_startsWith ic.1⟩]
    exact ih _

/-- Loading the directory written by the save path: the stats file is
skipped, every chunk parses, and the result merges all chunks. -/
theorem load_dirOfStore (s : Store) :
    load_file_metadata (some (dirOfStore s)) =
      .ok (s.foldl (fun acc ic => mergeChunk acc ic.2) []) := by
  show loadAux (dirOfStore s) [] = _
  unfold dirOfStore loadAux
  split
  · rename_i hcond
    exact absurd hcond.2 (by decide)
  · exact loadAux_chunks s []

theorem mergeAll_eq (s : Store) (acc : Chunk) :
    s.foldl (fun acc ic => mergeChunk acc ic.2) acc =
    (storeEntries s).foldl (fun acc kv => insertKV acc kv.2.path kv.2) acc := by
  induction s generalizing acc with
  | nil => rfl
  | cons ic rest ih =>
    rw [List.foldl_cons, ih, storeEntries_cons, List.foldl_append]
    rfl

/-- Merging a distinct-keyed record list whose keys are the records' own
paths yields exactly the association-list semantics. -/
theorem foldl_ins_lookup (L : Chunk) :
    ∀ (acc : Chunk), (L.map Prod.fst).Nodup → (∀ kv ∈ L, kv.1 = kv.2.path) →
    ∀ p, lookupKV p (L.foldl (fun acc kv => insertKV acc kv.2.path kv.2) acc) =
      match lookupKV p L with
      | some v => some v
      | none => lookupKV p acc := by
  induction L with
  | nil =>
    intro acc _ _ p
    rfl
  | cons kv L' ih =>
    intro acc hnd hpath p
    rw [List.map_cons, List.nodup_cons] at hnd
    have hkey : kv.2.path = kv.1 := (hpath kv (List.mem_cons_self _ _)).symm
    rw [List.foldl_cons,
      ih (insertKV acc kv.2.path kv.2) hnd.2
        (fun kv' h => hpath kv' (List.mem_cons_of_mem _ h)) p]
    cases hL : lookupKV p L' with
    | some v =>
      by_cases hp : kv.1 = p
      · exfalso
        apply hnd.1
        rw [hp]
        exact List.mem_map.mpr ⟨(p, v), lookupKV_mem p L' v hL, rfl⟩
      · have h2 : lookupKV p (kv :: L') = some v := by
          show (if kv.1 = p then some kv.2 else lookupKV p L') = some v
          rw [if_neg hp, hL]
        rw [h2]
    | none =>
      by_cases hp : kv.1 = p
      · have h2 : lookupKV p (kv :: L') = some kv.2 := by
          show (if kv.1 = p then some kv.2 else lookupKV p L') = some kv.2
          rw [if_pos hp]
        rw [h2, hkey, hp]
        exact lookupKV_insertKV_self acc p kv.2
      · have h2 : lookupKV p (kv :: L') = lookupKV p L' := by
          show (if kv.1 = p then some kv.2 else lookupKV p L') = lookupKV p L'
          rw [if_neg hp]
        rw [h2, hL, hkey]
        exact lookupKV_insertKV_ne acc kv.1 p kv.2 (fun he => hp he.symm)

/-- C1: for any finite set of records with distinct paths (each keyed by its
own path, as the scanner produces), loading the store written by
`save_scan_result` from a fresh directory restores exactly the same mapping,
field for field, with timestamps truncated to whole Unix seconds — however
the records were split across chunk files. -/
theorem catalog_round_trip (entries : List (String × FileMetadata))
    (hkeys : ∀ kv ∈ entries, kv.1 = kv.2.path)
    (hnd : (entries.map Prod.fst).Nodup) :
    ∃ catalog,
      load_file_metadata (some (dirOfStore (save_scan_result entries))) = .ok catalog ∧
      ∀ p, lookupKV p catalog = (lookupKV p entries).map truncFM := by
  have hperm : (storeEntries (save_scan_result entries)).Perm
      (entries.map (fun kv => (kv.1, truncFM kv.2))) := by
    have h := saveChunksAux_perm 10000 entries 0 0 [] (by simp) hnd
      (by intro kv _ hmem; simp [storeEntries] at hmem)
    rw [show storeEntries ([] : Store) = [] from rfl, List.nil_append] at h
    exact h
  have hndS : ((storeEntries (save_scan_result entries)).map Prod.fst).Nodup := by
    rw [(hperm.map Prod.fst).nodup_iff, List.map_map]
    have he : entries.map (Prod.fst ∘ fun kv => (kv.1, truncFM kv.2)) =
        entries.map Prod.fst := List.map_congr_left (fun kv _ => rfl)
    rw [he]
    exact hnd
  have hpathS : ∀ kv ∈ storeEntries (save_scan_result entries), kv.1 = kv.2.path := by
    intro kv hkv
    rcases List.mem_map.mp (hperm.mem_iff.mp hkv) with ⟨kv₀, hkv₀, rfl⟩
    exact hkeys kv₀ hkv₀
  refine ⟨_, load_dirOfStore (save_scan_result entries), ?_⟩
  intro p
  rw [mergeAll_eq, foldl_ins_lookup (storeEntries (save_scan_result entries)) []
    hndS hpathS p]
  rw [lookupKV_perm _ _ hperm hndS p, lookupKV_map_val]
  cases lookupKV p entries <;> rfl

/-- Concrete records (with nonzero subsecond timestamps) for the C1
witness. -/
def sampleEntries : List (String × FileMetadata) :=
  [("/home/u/report.pdf",
    { sampleDocumentFM with created := { secs := 5, nsecs := 123456789 } }),
   ("/home/u/data.bin", sampleOtherFM)]

/-- Witness for C1 on two concrete records. -/
theorem catalog_round_trip_witness :
    (∀ kv ∈ sampleEntries, kv.1 = kv.2.path) ∧
    ((sampleEntries.map Prod.fst).Nodup) ∧
    ∃ catalog,
      load_file_metadata (some (dirOfStore (save_scan_result sampleEntries))) =
        .ok catalog ∧
      ∀ p, lookupKV p catalog = (lookupKV p sampleEntries).map truncFM :=
  ⟨by decide, by decide, catalog_round_trip sampleEntries (by decide) (by decide)⟩

end DriveDriver
